import Mathlib

/-!
Shallow embedding of the `dataloaders` Go library (batching DataLoader,
AttrDataLoader, ObjAttrDataLoader) and proofs about it.

Modelling conventions:
* Go `Key`, `Attribute` and `ObjectType` are `interface{}` values used only
  for equality; they are modelled as `Nat`.
* Go `Value` is `interface{}`; it is modelled by the inductive `Value` below,
  with `Value.nil` for the nil interface value, `Value.int` for boxed Go
  ints (the index variable of a `range` loop is an int) and `Value.obj` for
  arbitrary loaded payloads.
* A Go `error` is `Option GoError`, `none` being the nil error.
* Go maps are association lists in which an update prepends a new binding;
  lookup returns the most recent binding.
* Fallible evaluation (a Go index-out-of-range panic, or calling a nil
  initializer function) is an `Option` result, `none` meaning a panic.
-/

namespace Dataloaders

/-- Go `Key` (an `interface{}` used for map keys and equality). -/
abbrev Key := Nat

/-- Go `Value` (`interface{}`): nil, a boxed int, or an opaque payload. -/
inductive Value where
  | nil
  | int (n : Nat)
  | obj (id : Nat)
deriving DecidableEq, Repr

/-- The error taxonomy: the two registration error types defined by the
package (`ObjTypeNotRegError`, `AttrNotRegError`, each carrying a message)
and an opaque fetcher-returned error. -/
inductive GoError where
  | objTypeNotReg (msg : String)
  | attrNotReg (msg : String)
  | fetchErr (code : Nat)
deriving DecidableEq, Repr

/-- Embeds `IsLoadingError` (objattrdataloader.go): a type switch on a
non-nil error returns false for the two registration error types; every
other path, including a nil argument, falls through to `return true`. -/
def IsLoadingError : Option GoError → Bool
  | some (GoError.objTypeNotReg _) => false
  | some (GoError.attrNotReg _) => false
  | _ => true

/-- Association-list lookup, first match wins (models a Go map read). -/
def assocGet {α : Type} : List (Nat × α) → Nat → Option α
  | [], _ => none
  | (k, v) :: r, a => if a = k then some v else assocGet r a

/-- The per-loader cache `map[Key]Value`. -/
abbrev Cache := List (Key × Value)

/-- Embeds `DataLoader.unsafeSet`: write `key ↦ value` into the cache
(prepending shadows any older binding, as a map assignment does). -/
def cacheSet (c : Cache) (k : Key) (v : Value) : Cache := (k, v) :: c

/-- Embeds `DataLoader.Clear`: `delete(l.cache, key)`. -/
def cacheClear (c : Cache) (k : Key) : Cache := c.filter (fun p => p.fst != k)

/-- Embeds `DataLoader.prime` / `Prime(key, value, forcePrime)`:
`primeIt := forcePrime`; when not forced, a cache miss sets `primeIt`;
when `primeIt`, the value is stored via `unsafeSet`.  Returns `primeIt`
and the resulting cache.  The function consults nothing but the cache:
in particular it never calls `fetch`. -/
def DataLoader.prime (c : Cache) (key : Key) (value : Value) (forcePrime : Bool) : Bool × Cache :=
  let primeIt := forcePrime || (assocGet c key).isNone
  if primeIt then (true, cacheSet c key value) else (false, c)

/-- Embeds `batch.keyIndex` minus its scheduling side effects: linear scan
of the batch's keys for an equal key, returning its index and leaving the
keys unchanged; otherwise the key is appended and its new index (the old
length) is returned. -/
def keyIndex : List Key → Key → Nat × List Key
  | [], key => (0, [key])
  | k :: ks, key =>
    if key = k then (0, k :: ks)
    else ((keyIndex ks key).1 + 1, k :: (keyIndex ks key).2)

/-! ### Batch finalization state machine

`batch.keyIndex`, `batch.startTimer` and `batch.end` coordinate through the
loader mutex.  Every mutex-protected critical section is one atomic event:

* `addKey` — a `LoadThunk` call appends a new key to the attached batch
  (duplicate hits change nothing and are omitted).  The first key arms the
  timer goroutine; if `maxBatch ≠ 0` and the batch reached the cap while not
  `closing`, the batch is marked closing, detached (`l.batch = nil`) and
  `go b.end(l)` is scheduled, counted by `ends`.
* `timerFire` — the armed timer goroutine wakes after `wait` and takes the
  mutex (exactly once, so it requires `timerStarted ∧ ¬timerFired`); if the
  batch is already `closing` it is a no-op, otherwise it detaches the batch
  and calls `b.end(l)`.

`ends` counts the calls to `batch.end`, each of which invokes `fetch` once
on the batch's key list; `size` counts the distinct keys. -/

structure BatchState where
  closing : Bool
  attached : Bool
  size : Nat
  timerStarted : Bool
  timerFired : Bool
  ends : Nat
deriving DecidableEq, Repr

/-- The two kinds of mutex-protected events that can touch one batch. -/
inductive BEvent where
  | addKey
  | timerFire
deriving DecidableEq, Repr

/-- A batch as just created by `LoadThunk`: attached, empty, timer not yet
armed, never finalized. -/
def initBatch : BatchState :=
  { closing := false, attached := true, size := 0,
    timerStarted := false, timerFired := false, ends := 0 }

/-- One atomic step of the batch lifecycle; `none` when the event cannot
occur (keys join only an attached batch; the timer fires once, and only
after it was armed). -/
def bstep (maxBatch : Nat) (s : BatchState) : BEvent → Option BatchState
  | BEvent.addKey =>
    if s.attached then
      let pos := s.size
      let s1 : BatchState :=
        { s with size := pos + 1, timerStarted := s.timerStarted || pos == 0 }
      if maxBatch ≠ 0 ∧ pos + 1 ≥ maxBatch ∧ ¬s1.closing then
        some { s1 with closing := true, attached := false, ends := s1.ends + 1 }
      else
        some s1
    else none
  | BEvent.timerFire =>
    if s.timerStarted ∧ ¬s.timerFired then
      if s.closing then some { s with timerFired := true }
      else some { s with timerFired := true, attached := false, ends := s.ends + 1 }
    else none

/-- Run a sequence of events from a state. -/
def brun (maxBatch : Nat) : BatchState → List BEvent → Option BatchState
  | s, [] => some s
  | s, e :: es =>
    match bstep maxBatch s e with
    | some s' => brun maxBatch s' es
    | none => none

/-- The inductive invariant of the batch lifecycle. -/
def BInv (s : BatchState) : Prop :=
  s.ends = (if s.closing || s.timerFired then 1 else 0)
    ∧ (s.timerStarted = true ↔ 1 ≤ s.size)
    ∧ (s.timerFired = true → s.timerStarted = true)
    ∧ (s.attached = true → s.closing = false)
    ∧ (s.timerFired = true → s.attached = false)

theorem binv_init : BInv initBatch := by
  refine ⟨rfl, ?_, ?_, ?_, ?_⟩ <;> simp [initBatch]

theorem timerStarted_after_add {s : BatchState}
    (hts : s.timerStarted = true ↔ 1 ≤ s.size) :
    (s.timerStarted || (s.size == 0)) = true := by
  rcases Nat.eq_zero_or_pos s.size with h0 | h1
  · simp [h0]
  · simp [hts.mpr h1]

theorem binv_step {maxBatch : Nat} {s s' : BatchState} {e : BEvent}
    (hinv : BInv s) (hstep : bstep maxBatch s e = some s') : BInv s' := by
  obtain ⟨he, hts, htf, hac, hfa⟩ := hinv
  cases e with
  | addKey =>
    simp only [bstep] at hstep
    by_cases hat : s.attached = true
    · rw [if_pos hat] at hstep
      have hcl : s.closing = false := hac hat
      have hfr : s.timerFired = false := by
        cases hf : s.timerFired with
        | false => rfl
        | true => rw [hfa hf] at hat; exact absurd hat (by simp)
      rw [hcl, hfr] at he
      simp only [Bool.or_self, if_neg (by simp : ¬(false = true))] at he
      split at hstep
      · cases hstep
        refine ⟨?_, ?_, ?_, ?_, ?_⟩
        · simp [he]
        · simpa using timerStarted_after_add hts
        · intro _; exact timerStarted_after_add hts
        · intro hh; exact absurd hh (by simp)
        · intro hh; exact absurd hh (by simpa using hfr)
      · cases hstep
        refine ⟨?_, ?_, ?_, ?_, ?_⟩
        · simpa [hcl, hfr] using he
        · simpa using timerStarted_after_add hts
        · intro _; exact timerStarted_after_add hts
        · intro _; exact hcl
        · intro hh; exact absurd hh (by simpa using hfr)
    · rw [if_neg hat] at hstep; exact absurd hstep (by simp)
  | timerFire =>
    simp only [bstep] at hstep
    split at hstep
    · rename_i hcond
      have hstarted : s.timerStarted = true := hcond.1
      split at hstep
      · rename_i hcl
        have hnat : s.attached = false := by
          cases ha : s.attached with
          | false => rfl
          | true => rw [hac ha] at hcl; exact absurd hcl (by simp)
        cases hstep
        refine ⟨?_, ?_, ?_, ?_, ?_⟩
        · simpa [hcl] using he
        · simpa using hts
        · intro _; exact hstarted
        · intro hh; rw [hh] at hnat; exact absurd hnat (by simp)
        · intro _; exact hnat
      · rename_i hcl
        have hclf : s.closing = false := by
          cases hc : s.closing with
          | false => rfl
          | true => exact absurd hc hcl
        have hfr : s.timerFired = false := by
          cases hf : s.timerFired with
          | false => rfl
          | true => exact absurd (by simp [hf] : ¬(¬s.timerFired = true)) (by simpa using hcond.2)
        rw [hclf, hfr] at he
        simp only [Bool.or_self, if_neg (by simp : ¬(false = true))] at he
        cases hstep
        refine ⟨?_, ?_, ?_, ?_, ?_⟩
        · simp [hclf, he]
        · simpa using hts
        · intro _; exact hstarted
        · intro hh; exact absurd hh (by simp)
        · intro _; rfl
    · exact absurd hstep (by simp)

theorem binv_run {maxBatch : Nat} {s s' : BatchState} {tr : List BEvent}
    (hinv : BInv s) (hrun : brun maxBatch s tr = some s') : BInv s' := by
  induction tr generalizing s with
  | nil => simp only [brun] at hrun; cases hrun; exact hinv
  | cons e es ih =>
    simp only [brun] at hrun
    cases hst : bstep maxBatch s e with
    | none => rw [hst] at hrun; exact absurd hrun (by simp)
    | some s1 =>
      rw [hst] at hrun
      exact ih (binv_step hinv hst) hrun

/-- Once a batch is detached, no event re-attaches it and no key joins it. -/
theorem detached_frozen {maxBatch : Nat} {s s' : BatchState} {e : BEvent}
    (hdet : s.attached = false) (hstep : bstep maxBatch s e = some s') :
    s'.attached = false ∧ s'.size = s.size ∧ s'.closing = s.closing := by
  cases e with
  | addKey =>
    simp only [bstep, hdet] at hstep
    exact absurd hstep (by simp)
  | timerFire =>
    simp only [bstep] at hstep
    split at hstep
    · split at hstep
      · cases hstep; exact ⟨hdet, rfl, rfl⟩
      · cases hstep; exact ⟨rfl, rfl, rfl⟩
    · exact absurd hstep (by simp)

/-! ### keyIndex lemmas -/

theorem keyIndex_mem {ks : List Key} {key : Key} (h : key ∈ ks) :
    (keyIndex ks key).2 = ks := by
  induction ks with
  | nil => cases h
  | cons k r ih =>
    by_cases hk : key = k
    · simp [keyIndex, hk]
    · have hmem : key ∈ r := by
        rcases List.mem_cons.mp h with h1 | h2
        · exact absurd h1 hk
        · exact h2
      simp [keyIndex, if_neg hk, ih hmem]

theorem keyIndex_not_mem {ks : List Key} {key : Key} (h : key ∉ ks) :
    keyIndex ks key = (ks.length, ks ++ [key]) := by
  induction ks with
  | nil => simp [keyIndex]
  | cons k r ih =>
    have hk : ¬key = k := fun hh => h (by simp [hh])
    have hr : key ∉ r := fun hh => h (by simp [hh])
    simp [keyIndex, if_neg hk, ih hr]

theorem keyIndex_get (ks : List Key) (key : Key) :
    ((keyIndex ks key).2).get? (keyIndex ks key).1 = some key := by
  induction ks with
  | nil => simp [keyIndex]
  | cons k r ih =>
    by_cases hk : key = k
    · simp [keyIndex, hk]
    · simp only [keyIndex, if_neg hk]
      simpa using ih

theorem keyIndex_nodup {ks : List Key} (key : Key) (h : ks.Nodup) :
    ((keyIndex ks key).2).Nodup := by
  by_cases hmem : key ∈ ks
  · rw [keyIndex_mem hmem]; exact h
  · rw [keyIndex_not_mem hmem]
    refine List.nodup_append.mpr ⟨h, List.nodup_singleton key, ?_⟩
    intro a ha hb
    rw [List.mem_singleton.mp hb] at ha
    exact hmem ha

theorem keyIndex_idem (ks : List Key) (key : Key) :
    keyIndex (keyIndex ks key).2 key = ((keyIndex ks key).1, (keyIndex ks key).2) := by
  induction ks with
  | nil => simp [keyIndex]
  | cons k r ih =>
    by_cases hk : key = k
    · simp [keyIndex, hk]
    · simp [keyIndex, if_neg hk, ih]

/-- Claim C5: within one batch the key list stays duplicate-free:
`keyIndex` returns the position of an existing equal key when present
(leaving the keys unchanged) and appends the key only otherwise; the
returned position always holds the key, and re-enqueueing the same key
yields the same position, so duplicate enqueues share one slot and
`fetch` sees each key at most once per batch. -/
theorem keyIndex_dedup (ks : List Key) (key : Key) (h : ks.Nodup) :
    ((keyIndex ks key).2).Nodup
      ∧ ((keyIndex ks key).2).get? (keyIndex ks key).1 = some key
      ∧ (key ∈ ks → (keyIndex ks key).2 = ks)
      ∧ (key ∉ ks → keyIndex ks key = (ks.length, ks ++ [key]))
      ∧ keyIndex (keyIndex ks key).2 key = ((keyIndex ks key).1, (keyIndex ks key).2) :=
  ⟨keyIndex_nodup key h, keyIndex_get ks key,
   fun hm => keyIndex_mem hm, fun hm => keyIndex_not_mem hm,
   keyIndex_idem ks key⟩

theorem keyIndex_dedup_witness :
    ([1, 2] : List Key).Nodup
      ∧ (((keyIndex [1, 2] 2).2).Nodup
          ∧ ((keyIndex [1, 2] 2).2).get? (keyIndex [1, 2] 2).1 = some 2
          ∧ (2 ∈ ([1, 2] : List Key) → (keyIndex [1, 2] 2).2 = [1, 2])
          ∧ (2 ∉ ([1, 2] : List Key) → keyIndex [1, 2] 2 = (2, [1, 2, 2]))
          ∧ keyIndex (keyIndex [1, 2] 2).2 2 = ((keyIndex [1, 2] 2).1, (keyIndex [1, 2] 2).2)) :=
  ⟨by decide, keyIndex_dedup [1, 2] 2 (by decide)⟩

/-! ### Claim C1 -/

/-- Claim C1 (code bug at `err = nil`): the code's `IsLoadingError`
returns `true` on a nil error because the final `return true` sits outside
the `err != nil` guard, while the claim (and the function's own doc
comment, which promises true only when an error occurred while loading)
requires `false`.  On non-nil errors the claim's clauses hold: the two
registration error kinds yield `false` and a fetcher-returned error yields
`true`. -/
theorem isLoadingError_eval :
    IsLoadingError none = true
      ∧ IsLoadingError (some (GoError.objTypeNotReg "m")) = false
      ∧ IsLoadingError (some (GoError.attrNotReg "m")) = false
      ∧ IsLoadingError (some (GoError.fetchErr 0)) = true := by
  exact ⟨rfl, rfl, rfl, rfl⟩

/-! ### Claim C7 -/

/-- Claim C7: `Prime(key, value, force)` stores the value and returns true
exactly when forced or the key is absent; otherwise it returns false and
leaves the cache untouched.  A successful prime of `V1` followed by a
non-forced prime of `V2` at the same key returns false and leaves the
cached value at `V1`.  (`DataLoader.prime` reads and writes nothing but
the cache, so it cannot invoke the fetch callback.) -/
theorem prime_spec (c : Cache) (k : Key) (v v2 : Value) (force : Bool) :
    ((force = true ∨ assocGet c k = none) →
        DataLoader.prime c k v force = (true, cacheSet c k v))
      ∧ (force = false → (assocGet c k).isSome →
        DataLoader.prime c k v force = (false, c))
      ∧ ((DataLoader.prime c k v force).1 = true →
          DataLoader.prime (DataLoader.prime c k v force).2 k v2 false
              = (false, (DataLoader.prime c k v force).2)
            ∧ assocGet (DataLoader.prime c k v force).2 k = some v) := by
  refine ⟨?_, ?_, ?_⟩
  · rintro (hf | hn)
    · simp [DataLoader.prime, hf]
    · simp [DataLoader.prime, hn]
  · intro hf hs
    rcases hg : assocGet c k with _ | v0
    · rw [hg] at hs; exact absurd hs (by simp)
    · simp [DataLoader.prime, hf, hg]
  · intro ht
    by_cases hp : (force || (assocGet c k).isNone) = true
    · have hres : DataLoader.prime c k v force = (true, cacheSet c k v) := by
        simp [DataLoader.prime, hp]
      rw [hres]
      have hget : assocGet (cacheSet c k v) k = some v := by
        simp [cacheSet, assocGet]
      refine ⟨?_, hget⟩
      simp [DataLoader.prime, hget]
    · have hres : DataLoader.prime c k v force = (false, c) := by
        have : (force || (assocGet c k).isNone) = false := by
          cases hb : (force || (assocGet c k).isNone) with
          | false => rfl
          | true => exact absurd hb hp
        simp [DataLoader.prime, this]
      rw [hres] at ht
      exact absurd ht (by simp)

theorem prime_spec_witness :
    DataLoader.prime [] 0 (Value.obj 1) false = (true, cacheSet [] 0 (Value.obj 1))
      ∧ DataLoader.prime (DataLoader.prime [] 0 (Value.obj 1) false).2 0 (Value.obj 2) false
          = (false, (DataLoader.prime [] 0 (Value.obj 1) false).2)
      ∧ assocGet (DataLoader.prime [] 0 (Value.obj 1) false).2 0 = some (Value.obj 1) :=
  ⟨(prime_spec [] 0 (Value.obj 1) (Value.obj 2) false).1 (Or.inr (by decide)),
   ((prime_spec [] 0 (Value.obj 1) (Value.obj 2) false).2.2 (by decide)).1,
   ((prime_spec [] 0 (Value.obj 1) (Value.obj 2) false).2.2 (by decide)).2⟩

/-! ### Claim C3 -/

/-- Claim C3: per batch, `end` (and hence `fetch` on the batch's key
list) runs exactly once.  In every reachable state the finalization count
is at most 1; once the armed timer has fired the count is exactly 1
(whichever of the timer path and the size-cap path lost was a no-op under
the `closing` flag and the mutex); the first enqueued key arms the timer,
so a batch holding a key is always finalized once the timer goroutine
runs; and a detached batch accepts no further keys, so `fetch` sees the
batch's final key list. -/
theorem batch_finalized_exactly_once (maxBatch : Nat) (tr : List BEvent) (s : BatchState)
    (hrun : brun maxBatch initBatch tr = some s) :
    s.ends ≤ 1
      ∧ (s.timerFired = true → s.ends = 1)
      ∧ (s.closing = true → s.ends = 1)
      ∧ (1 ≤ s.size → s.timerStarted = true)
      ∧ (s.attached = false → ∀ e s', bstep maxBatch s e = some s' →
          s'.size = s.size ∧ s'.attached = false) := by
  obtain ⟨he, hts, htf, hac, hfa⟩ := binv_run binv_init hrun
  refine ⟨?_, ?_, ?_, ?_, ?_⟩
  · rw [he]; split <;> omega
  · intro hf; rw [he, hf, Bool.or_true]; rfl
  · intro hc; rw [he, hc, Bool.true_or]; rfl
  · exact hts.mpr
  · intro hdet e s' hstep
    obtain ⟨h1, h2, _⟩ := detached_frozen hdet hstep
    exact ⟨h2, h1⟩

theorem batch_finalized_exactly_once_witness :
    brun 2 initBatch [BEvent.addKey, BEvent.addKey, BEvent.timerFire] =
        some { closing := true, attached := false, size := 2,
               timerStarted := true, timerFired := true, ends := 1 }
      ∧ (1 : Nat) ≤ 1 :=
  ⟨by decide,
   by
     have h := batch_finalized_exactly_once 2 [BEvent.addKey, BEvent.addKey, BEvent.timerFire]
       { closing := true, attached := false, size := 2,
         timerStarted := true, timerFired := true, ends := 1 } (by decide)
     exact h.2.1 rfl ▸ Nat.le_refl 1⟩

/-! ### Sequential semantics of LoadThunk / LoadAll

The single-caller schedule: `LoadThunk` itself never blocks, so a caller
enqueues all its keys before any batch is finalized; cap-closed batches
and the final timer-closed batch are then fetched, and the thunks are
resolved in order.  A thunk is either a cache hit (its closure returns the
cached value with a nil error and performs no cache write) or a pending
slot `(batch, pos, key)` in the batch it joined. -/

inductive LThunk where
  | cached (v : Value)
  | pending (bid : Nat) (pos : Nat) (key : Key)
deriving DecidableEq, Repr

/-- The batches created during one enqueue phase (`batches`, indexed by
creation order) and which of them, if any, is the loader's open batch. -/
structure EnqSt where
  batches : List (List Key)
  openIdx : Option Nat
deriving DecidableEq, Repr

/-- A `DataLoader`: `maxBatch`, the `fetch` callback (returning the values
slice and the errors slice, `none` modelling a nil slice) and the cache.
The `wait` duration does not influence the sequential semantics. -/
structure DLState where
  maxBatch : Nat
  fetch : List Key → List Value × Option (List (Option GoError))
  cache : Cache

/-- Embeds the enqueue half of `DataLoader.LoadThunk`: a cache hit yields
a non-blocking thunk; otherwise the key joins the open batch through
`batch.keyIndex` (creating a batch when none is open), and reaching the
size cap `maxBatch` detaches the batch (`l.batch = nil`), exactly as the
cap check in `keyIndex` does. -/
def enqueueThunk (mb : Nat) (cache : Cache) (es : EnqSt) (key : Key) : LThunk × EnqSt :=
  match assocGet cache key with
  | some v => (LThunk.cached v, es)
  | none =>
    match es.openIdx with
    | none =>
      let bid := es.batches.length
      (LThunk.pending bid 0 key,
       { batches := es.batches ++ [[key]],
         openIdx := if mb ≠ 0 ∧ 1 ≥ mb then none else some bid })
    | some bid =>
      let ks := es.batches.getD bid []
      if key ∈ ks then
        (LThunk.pending bid (keyIndex ks key).1 key, es)
      else
        (LThunk.pending bid ks.length key,
         { batches := es.batches.set bid (ks ++ [key]),
           openIdx := if mb ≠ 0 ∧ ks.length + 1 ≥ mb then none else some bid })

/-- Enqueue a list of keys in order (the first loop of `LoadAll`). -/
def enqueueAll (mb : Nat) (cache : Cache) : EnqSt → List Key → List LThunk × EnqSt
  | es, [] => ([], es)
  | es, k :: ks =>
    let r := enqueueThunk mb cache es k
    let rest := enqueueAll mb cache r.2 ks
    (r.1 :: rest.1, rest.2)

/-- Embeds the error selection of a resolving thunk: with a nil errors
slice the error is nil; a length-1 slice is the error shared by every
key; otherwise `batch.error[pos]` is read (out of range = Go panic,
modelled as `none`). -/
def errOf (errs : Option (List (Option GoError))) (pos : Nat) : Option (Option GoError) :=
  match errs with
  | none => some none
  | some es => if es.length = 1 then some (es.getD 0 none) else es.get? pos

/-- The value/error a thunk resolves to, given the fetch results `fr` of
all batches (cache writes excluded); this is independent of the cache. -/
def thunkOutput (fr : List (List Value × Option (List (Option GoError)))) :
    LThunk → Option (Value × Option GoError)
  | LThunk.cached v => some (v, none)
  | LThunk.pending bid pos _ =>
    let r := fr.getD bid ([], none)
    match errOf r.2 pos with
    | none => none
    | some err => some (r.1.getD pos Value.nil, err)

/-- Embeds the blocking closure returned by `LoadThunk`: after the batch
is done, read `data[pos]` (zero value when out of range), select the
error, and on a nil error write `(key, data)` into the cache via
`unsafeSet` before returning. -/
def resolveThunk (fr : List (List Value × Option (List (Option GoError)))) (c : Cache) :
    LThunk → Option (Value × Option GoError × Cache)
  | LThunk.cached v => some (v, none, c)
  | LThunk.pending bid pos key =>
    let r := fr.getD bid ([], none)
    match errOf r.2 pos with
    | none => none
    | some err =>
      let v := r.1.getD pos Value.nil
      some (v, err, if err = none then cacheSet c key v else c)

/-- Resolve thunks in order, threading the cache (the second loop of
`LoadAll`). -/
def resolveAll (fr : List (List Value × Option (List (Option GoError)))) (c : Cache) :
    List LThunk → Option (List Value × List (Option GoError) × Cache)
  | [] => some ([], [], c)
  | t :: ts =>
    match resolveThunk fr c t with
    | none => none
    | some (v, e, c') =>
      match resolveAll fr c' ts with
      | none => none
      | some (vs, es, c'') => some (v :: vs, e :: es, c'')

/-- The thunks `LoadAll` enqueues, one per caller key, in caller order. -/
def loadAllThunks (s : DLState) (keys : List Key) : List LThunk :=
  (enqueueAll s.maxBatch s.cache { batches := [], openIdx := none } keys).1

/-- The batches built while `LoadAll` enqueues `keys`. -/
def loadAllBatches (s : DLState) (keys : List Key) : EnqSt :=
  (enqueueAll s.maxBatch s.cache { batches := [], openIdx := none } keys).2

/-- The per-batch fetch results for `LoadAll` (each batch is fetched once
on its key list, by `batch.end`). -/
def loadAllFetched (s : DLState) (keys : List Key) :
    List (List Value × Option (List (Option GoError))) :=
  (loadAllBatches s keys).batches.map s.fetch

/-- Embeds `DataLoader.LoadAll` under the single-caller schedule: enqueue
every key via `LoadThunk`, fetch each batch once on its key list, then
resolve all thunks in order. -/
def dlLoadAll (s : DLState) (keys : List Key) :
    Option (List Value × List (Option GoError) × DLState) :=
  match resolveAll (loadAllFetched s keys) s.cache (loadAllThunks s keys) with
  | none => none
  | some (vs, es, c') => some (vs, es, { s with cache := c' })

/-- Embeds `DataLoader.Load`: `LoadThunk(key)()`. -/
def dlLoad (s : DLState) (key : Key) : Option (Value × Option GoError × DLState) :=
  match dlLoadAll s [key] with
  | none => none
  | some (vs, es, s') => some (vs.getD 0 Value.nil, es.getD 0 none, s')

/-- Embeds `DataLoader.Prime` at the loader level. -/
def dlPrime (s : DLState) (key : Key) (value : Value) (forcePrime : Bool) : Bool × DLState :=
  let r := DataLoader.prime s.cache key value forcePrime
  (r.1, { s with cache := r.2 })

/-- Embeds `DataLoader.Clear`: delete the key from the cache, return self. -/
def dlClear (s : DLState) (key : Key) : DLState :=
  { s with cache := cacheClear s.cache key }

/-! ### Claim C4 -/

/-- Claim C4: when a pending thunk resolves with a nil error, the
`(key, value)` pair is written to the cache (via `unsafeSet`) before the
thunk returns; when the error is non-nil the cache is left exactly as it
was, so a key whose fetch errored is not cached and a later `Load` of
that key misses the cache and enqueues the key for a fresh fetch. -/
theorem thunk_cache_on_success (fr : List (List Value × Option (List (Option GoError))))
    (c : Cache) (bid pos : Nat) (key : Key) (v : Value) (err : Option GoError) (c' : Cache)
    (h : resolveThunk fr c (LThunk.pending bid pos key) = some (v, err, c')) :
    (err = none → c' = cacheSet c key v ∧ assocGet c' key = some v)
      ∧ (err ≠ none → c' = c)
      ∧ (err ≠ none → assocGet c key = none →
          ∀ mb, (enqueueAll mb c' { batches := [], openIdx := none } [key]).1
            = [LThunk.pending 0 0 key]) := by
  simp only [resolveThunk] at h
  cases he : errOf (fr.getD bid ([], none)).2 pos with
  | none => rw [he] at h; exact absurd h (by simp)
  | some e =>
    rw [he] at h
    simp only [Option.some.injEq, Prod.mk.injEq] at h
    obtain ⟨hv, herr, hc⟩ := h
    refine ⟨?_, ?_, ?_⟩
    · intro hn
      rw [hn] at herr
      rw [← herr] at hc
      simp only [if_pos rfl] at hc
      rw [← hc, ← hv]
      exact ⟨rfl, by simp [cacheSet, assocGet]⟩
    · intro hn
      have : ¬e = none := by rw [herr]; exact hn
      rw [← hc, if_neg (by rw [herr]; exact hn)]
    · intro hn hmiss mb
      have hcc : c' = c := by rw [← hc, if_neg (by rw [herr]; exact hn)]
      simp [enqueueAll, enqueueThunk, hcc, hmiss]

theorem thunk_cache_on_success_witness :
    resolveThunk [([Value.obj 3], some [some (GoError.fetchErr 1)])] []
        (LThunk.pending 0 0 9)
      = some (Value.obj 3, some (GoError.fetchErr 1), [])
      ∧ ([] : Cache) = []
      ∧ (enqueueAll 0 [] { batches := [], openIdx := none } [9]).1
          = [LThunk.pending 0 0 9]
      ∧ resolveThunk [([Value.obj 3], some [(none : Option GoError)])] []
          (LThunk.pending 0 0 9)
        = some (Value.obj 3, none, cacheSet [] 9 (Value.obj 3))
      ∧ assocGet (cacheSet ([] : Cache) 9 (Value.obj 3)) 9 = some (Value.obj 3) := by
  refine ⟨by decide, ?_, ?_, by decide, ?_⟩
  · exact (thunk_cache_on_success [([Value.obj 3], some [some (GoError.fetchErr 1)])]
      [] 0 0 9 (Value.obj 3) (some (GoError.fetchErr 1)) [] (by decide)).2.1 (by decide)
  · exact (thunk_cache_on_success [([Value.obj 3], some [some (GoError.fetchErr 1)])]
      [] 0 0 9 (Value.obj 3) (some (GoError.fetchErr 1)) [] (by decide)).2.2
        (by decide) (by decide) 0
  · exact ((thunk_cache_on_success [([Value.obj 3], some [(none : Option GoError)])]
      [] 0 0 9 (Value.obj 3) none (cacheSet [] 9 (Value.obj 3)) (by decide)).1 rfl).2

/-! ### Claim C9: positional correspondence of LoadAll -/

theorem listGetD_append_lt {α : Type} (l l' : List α) (d : α) (n : Nat) (h : n < l.length) :
    (l ++ l').getD n d = l.getD n d := by
  rw [List.getD_eq_getElem?_getD, List.getD_eq_getElem?_getD, List.getElem?_append_left h]

theorem listGetD_append_self {α : Type} (l : List α) (a d : α) :
    (l ++ [a]).getD l.length d = a := by
  rw [List.getD_eq_getElem?_getD, List.getElem?_concat_length]; rfl

theorem listGetD_set_self {α : Type} (l : List α) (i : Nat) (a d : α) (h : i < l.length) :
    (l.set i a).getD i d = a := by
  rw [List.getD_eq_getElem?_getD, List.getElem?_set_eq_of_lt a h]; rfl

theorem listGetD_set_ne {α : Type} (l : List α) (i j : Nat) (a d : α) (h : i ≠ j) :
    (l.set i a).getD j d = l.getD j d := by
  rw [List.getD_eq_getElem?_getD, List.getD_eq_getElem?_getD, List.getElem?_set_ne h]

/-- The key list of batch `bid`. -/
def BKeys (es : EnqSt) (bid : Nat) : List Key := es.batches.getD bid []

/-- A thunk is a faithful handle for `key`: a cached thunk holds the
cached value of `key`, a pending thunk references an existing batch whose
key list holds exactly `key` at the thunk's position. -/
def ThunkMatches (cache : Cache) (es : EnqSt) (key : Key) : LThunk → Prop
  | LThunk.cached v => assocGet cache key = some v
  | LThunk.pending bid pos k =>
      k = key ∧ bid < es.batches.length ∧ (BKeys es bid).get? pos = some key

/-- The open-batch index, when set, references an existing batch. -/
def WFEnq (es : EnqSt) : Prop :=
  ∀ bid, es.openIdx = some bid → bid < es.batches.length

theorem enqueueThunk_wf {mb : Nat} {c : Cache} {es : EnqSt} {k : Key}
    (h : WFEnq es) : WFEnq (enqueueThunk mb c es k).2 := by
  unfold enqueueThunk
  cases hg : assocGet c k with
  | some v => exact h
  | none =>
    cases ho : es.openIdx with
    | none =>
      intro bid hbid
      dsimp only at hbid
      split at hbid
      · cases hbid
      · cases hbid
        simp
    | some bid0 =>
      dsimp only
      by_cases hmem : k ∈ es.batches.getD bid0 []
      · rw [if_pos hmem]
        exact h
      · rw [if_neg hmem]
        intro bid hbid
        dsimp only at hbid
        split at hbid
        · cases hbid
        · cases hbid
          simpa using h bid0 ho

theorem enqueueThunk_mono {mb : Nat} {c : Cache} {es : EnqSt} {k key : Key} {t : LThunk}
    (hwf : WFEnq es) (hm : ThunkMatches c es key t) :
    ThunkMatches c (enqueueThunk mb c es k).2 key t := by
  cases t with
  | cached v => exact hm
  | pending bid pos k0 =>
    obtain ⟨hk, hlt, hget⟩ := hm
    unfold enqueueThunk
    cases hg : assocGet c k with
    | some v => exact ⟨hk, hlt, hget⟩
    | none =>
      cases ho : es.openIdx with
      | none =>
        refine ⟨hk, by simpa using Nat.lt_succ_of_lt hlt, ?_⟩
        unfold BKeys at hget ⊢
        dsimp only
        rw [listGetD_append_lt _ _ _ _ hlt]
        exact hget
      | some bid0 =>
        dsimp only
        by_cases hmem : k ∈ es.batches.getD bid0 []
        · rw [if_pos hmem]
          exact ⟨hk, hlt, hget⟩
        · rw [if_neg hmem]
          refine ⟨hk, by simpa using hlt, ?_⟩
          unfold BKeys at hget ⊢
          dsimp only
          by_cases hbb : bid0 = bid
          · subst hbb
            rw [listGetD_set_self _ _ _ _ (hwf bid0 ho)]
            have hpos : pos < (es.batches.getD bid0 []).length := by
              rcases List.get?_eq_some.mp hget with ⟨hp, _⟩
              exact hp
            rw [List.get?_eq_getElem?, List.getElem?_append_left hpos]
            rw [List.get?_eq_getElem?] at hget
            exact hget
          · rw [listGetD_set_ne _ _ _ _ _ hbb]
            exact hget

theorem enqueueThunk_self {mb : Nat} {c : Cache} {es : EnqSt} {key : Key}
    (hwf : WFEnq es) :
    ThunkMatches c (enqueueThunk mb c es key).2 key (enqueueThunk mb c es key).1 := by
  unfold enqueueThunk
  cases hg : assocGet c key with
  | some v => exact hg
  | none =>
    cases ho : es.openIdx with
    | none =>
      refine ⟨rfl, by simp, ?_⟩
      unfold BKeys
      dsimp only
      rw [listGetD_append_self]
      rfl
    | some bid0 =>
      dsimp only
      by_cases hmem : key ∈ es.batches.getD bid0 []
      · rw [if_pos hmem]
        refine ⟨rfl, hwf bid0 ho, ?_⟩
        unfold BKeys
        have h2 := keyIndex_mem hmem
        have h1 := keyIndex_get (es.batches.getD bid0 []) key
        rw [h2] at h1
        exact h1
      · rw [if_neg hmem]
        refine ⟨rfl, by simpa using hwf bid0 ho, ?_⟩
        unfold BKeys
        dsimp only
        rw [listGetD_set_self _ _ _ _ (hwf bid0 ho)]
        rw [List.get?_eq_getElem?, List.getElem?_concat_length]

theorem enqueueAll_mono {mb : Nat} {c : Cache} :
    ∀ (keys : List Key) (es : EnqSt), WFEnq es →
      ∀ {key : Key} {t : LThunk}, ThunkMatches c es key t →
        ThunkMatches c (enqueueAll mb c es keys).2 key t
  | [], _, _, _, _, hm => hm
  | k :: ks, es, hwf, _, _, hm =>
    enqueueAll_mono ks (enqueueThunk mb c es k).2 (enqueueThunk_wf hwf)
      (enqueueThunk_mono hwf hm)

theorem enqueueAll_wf {mb : Nat} {c : Cache} :
    ∀ (keys : List Key) (es : EnqSt), WFEnq es → WFEnq (enqueueAll mb c es keys).2
  | [], _, hwf => hwf
  | k :: ks, es, hwf => enqueueAll_wf ks (enqueueThunk mb c es k).2 (enqueueThunk_wf hwf)

theorem enqueueAll_matches (mb : Nat) (c : Cache) :
    ∀ (keys : List Key) (es : EnqSt), WFEnq es →
      (enqueueAll mb c es keys).1.length = keys.length
        ∧ ∀ i, i < keys.length →
            ThunkMatches c (enqueueAll mb c es keys).2 (keys.getD i 0)
              ((enqueueAll mb c es keys).1.getD i (LThunk.cached Value.nil))
  | [], es, _ => ⟨rfl, fun i hi => absurd hi (by simp)⟩
  | k :: ks, es, hwf => by
    obtain ⟨hlen, hmat⟩ :=
      enqueueAll_matches mb c ks (enqueueThunk mb c es k).2
        (enqueueThunk_wf hwf)
    refine ⟨by simpa [enqueueAll] using hlen, ?_⟩
    intro i hi
    cases i with
    | zero =>
      show ThunkMatches c (enqueueAll mb c es (k :: ks)).2 k (enqueueThunk mb c es k).1
      exact enqueueAll_mono ks (enqueueThunk mb c es k).2 (enqueueThunk_wf hwf)
        (enqueueThunk_self hwf)
    | succ j =>
      have hj : j < ks.length := by
        simp only [List.length_cons] at hi
        omega
      exact hmat j hj

theorem resolveThunk_output {fr : List (List Value × Option (List (Option GoError)))}
    {c : Cache} {t : LThunk} {v : Value} {e : Option GoError} {c' : Cache}
    (h : resolveThunk fr c t = some (v, e, c')) : thunkOutput fr t = some (v, e) := by
  cases t with
  | cached w =>
    simp only [resolveThunk, Option.some.injEq, Prod.mk.injEq] at h
    simp [thunkOutput, h.1, h.2.1]
  | pending bid pos k =>
    simp only [resolveThunk] at h
    cases he : errOf (fr.getD bid ([], none)).2 pos with
    | none => rw [he] at h; exact absurd h (by simp)
    | some err =>
      rw [he] at h
      simp only [Option.some.injEq, Prod.mk.injEq] at h
      simp only [thunkOutput]
      rw [he]
      rw [h.1, h.2.1]

theorem resolveAll_outputs {fr : List (List Value × Option (List (Option GoError)))} :
    ∀ (ts : List LThunk) (c : Cache) (vs : List Value) (es : List (Option GoError))
      (c' : Cache), resolveAll fr c ts = some (vs, es, c') →
      vs.length = ts.length ∧ es.length = ts.length
        ∧ ∀ i, i < ts.length →
            thunkOutput fr (ts.getD i (LThunk.cached Value.nil))
              = some (vs.getD i Value.nil, es.getD i none)
  | [], c, vs, es, c', h => by
    simp only [resolveAll, Option.some.injEq, Prod.mk.injEq] at h
    obtain ⟨h1, h2, _⟩ := h
    subst h1
    subst h2
    exact ⟨rfl, rfl, fun i hi => absurd hi (by simp)⟩
  | t :: ts, c, vs, es, c', h => by
    simp only [resolveAll] at h
    cases h1 : resolveThunk fr c t with
    | none => rw [h1] at h; exact absurd h (by simp)
    | some r =>
      obtain ⟨v, e, c1⟩ := r
      rw [h1] at h
      cases h2 : resolveAll fr c1 ts with
      | none => simp only [h2] at h; exact absurd h (by simp)
      | some r2 =>
        obtain ⟨vs1, es1, c2⟩ := r2
        simp only [h2, Option.some.injEq, Prod.mk.injEq] at h
        obtain ⟨hvs, hes, _⟩ := h
        obtain ⟨hl1, hl2, hout⟩ := resolveAll_outputs ts c1 vs1 es1 c2 h2
        subst hvs hes
        refine ⟨by simpa using hl1, by simpa using hl2, ?_⟩
        intro i hi
        cases i with
        | zero => simpa using resolveThunk_output h1
        | succ j =>
          have hj : j < ts.length := by
            simp only [List.length_cons] at hi
            omega
          simpa using hout j hj

/-- Claim C9: `LoadAll(keys)` returns value and error sequences of the
same length as `keys`, and slot `i` is the resolution of the thunk
enqueued for `keys[i]`: a cache-hit thunk carrying the cached value of
`keys[i]`, or a pending thunk whose batch holds exactly `keys[i]` at the
thunk's position — so results line up with the caller's keys, not with
the order in which batches were dispatched to `fetch`. -/
theorem loadAll_positional (s : DLState) (keys : List Key)
    (vs : List Value) (es : List (Option GoError)) (s' : DLState)
    (h : dlLoadAll s keys = some (vs, es, s')) :
    vs.length = keys.length ∧ es.length = keys.length
      ∧ ∀ i, i < keys.length →
          thunkOutput (loadAllFetched s keys)
              ((loadAllThunks s keys).getD i (LThunk.cached Value.nil))
            = some (vs.getD i Value.nil, es.getD i none)
          ∧ ThunkMatches s.cache (loadAllBatches s keys) (keys.getD i 0)
              ((loadAllThunks s keys).getD i (LThunk.cached Value.nil)) := by
  have hwf0 : WFEnq { batches := [], openIdx := none } := by
    intro bid hbid; cases hbid
  obtain ⟨hlen, hmat⟩ := enqueueAll_matches s.maxBatch s.cache keys
    { batches := [], openIdx := none } hwf0
  have hlen' : (loadAllThunks s keys).length = keys.length := hlen
  simp only [dlLoadAll] at h
  cases hres : resolveAll (loadAllFetched s keys) s.cache (loadAllThunks s keys) with
  | none =>
    rw [hres] at h
    exact absurd h (by simp)
  | some r =>
    obtain ⟨vs1, es1, c1⟩ := r
    rw [hres] at h
    simp only [Option.some.injEq, Prod.mk.injEq] at h
    obtain ⟨hv, he, _⟩ := h
    subst hv he
    obtain ⟨hl1, hl2, hout⟩ :=
      resolveAll_outputs (loadAllThunks s keys) s.cache vs1 es1 c1 hres
    refine ⟨by rw [hl1]; exact hlen', by rw [hl2]; exact hlen', ?_⟩
    intro i hi
    exact ⟨hout i (by rw [hlen']; exact hi), hmat i hi⟩

/-- A simple fetcher for witnesses: key `k` loads `Value.obj k`, no errors. -/
def exFetch (ks : List Key) : List Value × Option (List (Option GoError)) :=
  (ks.map Value.obj, some (ks.map (fun _ => (none : Option GoError))))

theorem loadAll_positional_witness :
    dlLoadAll { maxBatch := 0, fetch := exFetch, cache := [] } [5, 6, 5]
        = some ([Value.obj 5, Value.obj 6, Value.obj 5],
                [none, none, none],
                { maxBatch := 0, fetch := exFetch,
                  cache := [(5, Value.obj 5), (6, Value.obj 6), (5, Value.obj 5)] })
      ∧ ([Value.obj 5, Value.obj 6, Value.obj 5] : List Value).length = [5, 6, 5].length :=
  ⟨rfl,
   (loadAll_positional { maxBatch := 0, fetch := exFetch, cache := [] } [5, 6, 5]
      [Value.obj 5, Value.obj 6, Value.obj 5] [none, none, none]
      { maxBatch := 0, fetch := exFetch,
        cache := [(5, Value.obj 5), (6, Value.obj 6), (5, Value.obj 5)] } rfl).1⟩

/-! ### Lazy loader registration (AttrDataLoader.loader / ObjAttrDataLoader.loader)

`AttrDataLoader.loader` (src/unnamed/part_002) and `ObjAttrDataLoader.loader`
(objattrdataloader.go) are textually identical up to renaming, so both are
embedded by one generic `regLoader` over the payload type `α` (`α` is
`*DataLoader` at the attribute layer, `*AttrDataLoader` at the object
layer).  An initializer-map entry holds `some f` while the thunk is
pending; consuming it overwrites the entry with `nil` (`some none` after
lookup).  The thunk's output is modelled by the stored payload. -/

structure LazyReg (α : Type) where
  loaders : List (Nat × α)
  initLoaders : List (Nat × Option α)
deriving DecidableEq, Repr

/-- Embeds the `loader` method, also reporting whether the initializer
thunk was invoked.  An existing loader is returned as is; otherwise a
registered initializer is invoked, its slot is nulled out, and the new
loader is stored; otherwise the lookup yields `none` (Go nil).  Invoking
an already-nulled initializer would be a Go nil-function panic, modelled
as `none`. -/
def regLoader {α : Type} (s : LazyReg α) (a : Nat) : Option (Option α × LazyReg α × Bool) :=
  match assocGet s.loaders a with
  | some ld => some (some ld, s, false)
  | none =>
    match assocGet s.initLoaders a with
    | some (some mk) =>
      some (some mk,
        { loaders := (a, mk) :: s.loaders, initLoaders := (a, none) :: s.initLoaders },
        true)
    | some none => none
    | none => some (none, s, false)

/-- Run a sequence of `loader` lookups, collecting (in order) the
attributes whose initializer thunk was invoked. -/
def regRun {α : Type} : LazyReg α → List Nat → Option (LazyReg α × List Nat)
  | s, [] => some (s, [])
  | s, a :: rest =>
    match regLoader s a with
    | none => none
    | some (_, s', invoked) =>
      match regRun s' rest with
      | none => none
      | some (sf, inv) => some (sf, (if invoked then [a] else []) ++ inv)

/-- Occurrence count in a list of attributes. -/
def countOcc (a : Nat) : List Nat → Nat
  | [] => 0
  | b :: l => (if b = a then 1 else 0) + countOcc a l

theorem countOcc_append (a : Nat) (l l' : List Nat) :
    countOcc a (l ++ l') = countOcc a l + countOcc a l' := by
  induction l with
  | nil => simp [countOcc]
  | cons b l ih => simp [countOcc, ih]; omega

/-- State invariant: an attribute's loader exists iff its initializer
slot has been consumed (nulled). -/
def RegStInv {α : Type} (s : LazyReg α) : Prop :=
  (∀ a, (assocGet s.loaders a).isSome → assocGet s.initLoaders a = some none)
    ∧ (∀ a, assocGet s.initLoaders a = some none → (assocGet s.loaders a).isSome)

theorem assocGet_mem {α : Type} {l : List (Nat × α)} {a : Nat} {v : α}
    (h : assocGet l a = some v) : (a, v) ∈ l := by
  induction l with
  | nil => cases h
  | cons p r ih =>
    by_cases hp : a = p.1
    · simp only [assocGet, if_pos hp] at h
      cases h
      exact List.mem_cons.mpr (Or.inl (by rw [hp]))
    · simp only [assocGet] at h
      rw [if_neg hp] at h
      exact List.mem_cons_of_mem p (ih h)

theorem regLoader_step {α : Type} {s : LazyReg α} {a : Nat} {ld : Option α}
    {s' : LazyReg α} {invoked : Bool} (hst : RegStInv s)
    (hr : regLoader s a = some (ld, s', invoked)) :
    RegStInv s'
      ∧ (invoked = true →
          assocGet s.loaders a = none
            ∧ (∃ mk, ld = some mk ∧ s'.loaders = (a, mk) :: s.loaders)
            ∧ (assocGet s'.loaders a).isSome)
      ∧ (invoked = false → s' = s) := by
  unfold regLoader at hr
  cases hl : assocGet s.loaders a with
  | some ld0 =>
    rw [hl] at hr
    simp only [Option.some.injEq, Prod.mk.injEq] at hr
    obtain ⟨_, h2, h3⟩ := hr
    subst h2
    refine ⟨hst, ?_, fun _ => rfl⟩
    intro hh
    rw [← h3] at hh
    exact absurd hh (by simp)
  | none =>
    rw [hl] at hr
    cases hi : assocGet s.initLoaders a with
    | none =>
      rw [hi] at hr
      simp only [Option.some.injEq, Prod.mk.injEq] at hr
      obtain ⟨_, h2, h3⟩ := hr
      subst h2
      refine ⟨hst, ?_, fun _ => rfl⟩
      intro hh
      rw [← h3] at hh
      exact absurd hh (by simp)
    | some fn =>
      cases fn with
      | none => rw [hi] at hr; exact absurd hr (by simp)
      | some mk =>
        rw [hi] at hr
        simp only [Option.some.injEq, Prod.mk.injEq] at hr
        obtain ⟨h1, h2, h3⟩ := hr
        subst h2
        refine ⟨⟨?_, ?_⟩, ?_, ?_⟩
        · intro b hb
          by_cases hba : b = a
          · subst hba
            simp [assocGet]
          · simp only [assocGet, if_neg hba] at hb ⊢
            exact hst.1 b hb
        · intro b hb
          by_cases hba : b = a
          · subst hba
            simp [assocGet]
          · simp only [assocGet, if_neg hba] at hb ⊢
            exact hst.2 b hb
        · intro _
          exact ⟨rfl, ⟨mk, h1.symm, rfl⟩, by simp [assocGet]⟩
        · intro hh
          rw [← h3] at hh
          exact absurd hh (by simp)

theorem regRun_spec {α : Type} :
    ∀ (reqs : List Nat) (s sf : LazyReg α) (inv : List Nat),
      RegStInv s → regRun s reqs = some (sf, inv) →
      RegStInv sf
        ∧ (∀ a, countOcc a inv ≤ 1)
        ∧ (∀ a, 1 ≤ countOcc a inv → (assocGet sf.loaders a).isSome)
        ∧ (∀ a, (assocGet s.loaders a).isSome →
            (assocGet sf.loaders a).isSome ∧ countOcc a inv = 0)
  | [], s, sf, inv, hst, hrun => by
    simp only [regRun, Option.some.injEq, Prod.mk.injEq] at hrun
    obtain ⟨h1, h2⟩ := hrun
    subst h1
    subst h2
    exact ⟨hst, fun a => by simp [countOcc], fun a ha => absurd ha (by simp [countOcc]),
      fun a ha => ⟨ha, rfl⟩⟩
  | a :: rest, s, sf, inv, hst, hrun => by
    simp only [regRun] at hrun
    cases hr : regLoader s a with
    | none => rw [hr] at hrun; exact absurd hrun (by simp)
    | some r =>
      obtain ⟨ld, s', invoked⟩ := r
      rw [hr] at hrun
      cases hrest : regRun s' rest with
      | none => simp only [hrest] at hrun; exact absurd hrun (by simp)
      | some r2 =>
        obtain ⟨sf1, inv1⟩ := r2
        simp only [hrest, Option.some.injEq, Prod.mk.injEq] at hrun
        obtain ⟨rfl, rfl⟩ := hrun
        obtain ⟨hst', hinvk, hnoinv⟩ := regLoader_step hst hr
        obtain ⟨hstf, hcount, hsome, hmono⟩ := regRun_spec rest s' sf1 inv1 hst' hrest
        cases invoked with
        | false =>
          have hs' : s' = s := hnoinv rfl
          subst hs'
          simp only [if_neg (by simp : ¬(false = true)), List.nil_append]
          exact ⟨hstf, hcount, hsome, hmono⟩
        | true =>
          obtain ⟨hpre, ⟨mk, hmk, hload⟩, hpost⟩ := hinvk rfl
          simp only [if_pos rfl]
          have hcnt_a : countOcc a inv1 = 0 := by
            have := hmono a (by rw [hload]; simp [assocGet])
            exact this.2
          refine ⟨hstf, ?_, ?_, ?_⟩
          · intro b
            rw [countOcc_append]
            by_cases hba : b = a
            · subst hba
              simp [countOcc, hcnt_a]
            · simp only [countOcc, show ¬a = b from fun hh => hba hh.symm, if_false]
              simpa using hcount b
          · intro b hb
            rw [countOcc_append] at hb
            by_cases hba : b = a
            · subst hba
              exact (hmono b (by rw [hload]; simp [assocGet])).1
            · apply hsome b
              simp only [countOcc, show ¬a = b from fun hh => hba hh.symm, if_false] at hb
              omega
          · intro b hb
            have hbne : ¬b = a := by
              intro hh
              subst hh
              rw [hpre] at hb
              exact absurd hb (by simp)
            have hb' : (assocGet s'.loaders b).isSome := by
              rw [hload]
              simp only [assocGet, if_neg hbne]
              exact hb
            refine ⟨(hmono b hb').1, ?_⟩
            rw [countOcc_append]
            simp only [countOcc, show ¬a = b from fun hh => hbne hh.symm, if_false]
            simpa using (hmono b hb').2

/-- Claim C6: starting from a freshly constructed dispatcher (empty
`loaders` map, no nulled initializer entries), over any sequence of
`loader(attribute)` lookups each attribute's initializer thunk is invoked
at most once; every attribute present in `loaders` has its `initLoaders`
entry consumed (nulled); and once a loader is stored, a further lookup
returns exactly that loader without invoking anything.  This covers both
`AttrDataLoader.loader` and the textually identical
`ObjAttrDataLoader.loader`. -/
theorem init_thunk_at_most_once {α : Type} (reqs : List Nat) (s0 sf : LazyReg α)
    (inv : List Nat) (h0 : s0.loaders = [])
    (h0init : ∀ p ∈ s0.initLoaders, p.snd ≠ (none : Option α))
    (hrun : regRun s0 reqs = some (sf, inv)) :
    (∀ a, countOcc a inv ≤ 1)
      ∧ (∀ a, (assocGet sf.loaders a).isSome → assocGet sf.initLoaders a = some none)
      ∧ (∀ a ld, assocGet sf.loaders a = some ld →
          regLoader sf a = some (some ld, sf, false)) := by
  have hst : RegStInv s0 := by
    constructor
    · intro a ha
      rw [h0] at ha
      exact absurd ha (by simp [assocGet])
    · intro a ha
      exact absurd rfl (h0init (a, none) (assocGet_mem ha))
  obtain ⟨hstf, hcount, _, _⟩ := regRun_spec reqs s0 sf inv hst hrun
  refine ⟨hcount, hstf.1, ?_⟩
  intro a ld hld
  unfold regLoader
  rw [hld]

theorem init_thunk_at_most_once_witness :
    countOcc 3 [3] ≤ 1
      ∧ assocGet ([(3, none), (3, some 10)] : List (Nat × Option Nat)) 3 = some none := by
  have h := init_thunk_at_most_once [3, 3, 4]
    ({ loaders := [], initLoaders := [(3, some 10)] } : LazyReg Nat)
    { loaders := [(3, 10)], initLoaders := [(3, none), (3, some 10)] } [3]
    rfl (by decide) (by decide)
  exact ⟨h.1 3, h.2.1 3 (by decide)⟩

/-! ### AttrDataLoader and ObjAttrDataLoader operations

The embedder-owned propagator callback is modelled by its invocation
trace: each operation returns the list of first arguments passed to the
registered propagator (empty when no propagator is registered for the
attribute), in invocation order. -/

/-- An `AttrDataLoader`: the lazy registry of per-attribute `DataLoader`s
and the set of attributes having a registered `ValuePropagator`. -/
structure AttrState where
  reg : LazyReg DLState
  props : List Nat

/-- The message built by `NewAttrNotRegError` in `AttrDataLoader.Load` /
`LoadAll` (quotes around the attribute elided). -/
def attrNotRegMsg (a : Nat) : String :=
  "no dataloader for attribute " ++ toString a ++ " registered"

/-- The message built by `NewObjTypeNotRegError` in `ObjAttrDataLoader`. -/
def objTypeNotRegMsg (ot : Nat) : String :=
  "no dataloader for objectType " ++ toString ot ++ " registered"

/-- Embeds `AttrDataLoader.RunPropagator` as a trace: the propagator is
invoked on `value` iff one is registered for the attribute. -/
def runPropagator (s : AttrState) (value : Value) (a : Nat) : List Value :=
  if a ∈ s.props then [value] else []

/-- Embeds `AttrDataLoader.Load`: look up / lazily build the attribute's
loader; on nil loader return `AttrNotRegError`; otherwise delegate to
`DataLoader.Load` and, on a nil error, run the propagator on the loaded
value.  Returns (value, error, propagator-invocation trace, new state). -/
def attrLoad (s : AttrState) (a : Nat) (key : Key) :
    Option (Value × Option GoError × List Value × AttrState) :=
  match regLoader s.reg a with
  | none => none
  | some (some dl, reg1, _) =>
    match dlLoad dl key with
    | none => none
    | some (v, err, dl') =>
      some (v, err, if err = none then runPropagator s v a else [],
        { s with reg := { reg1 with loaders := (a, dl') :: reg1.loaders } })
  | some (none, reg1, _) =>
    some (Value.nil, some (GoError.attrNotReg (attrNotRegMsg a)), [], { s with reg := reg1 })

/-- The first arguments passed to `RunPropagator` by the loop
`for val := range values` in `AttrDataLoader.LoadAll`: ranging over a
slice with a single variable binds the successive indices, so the loop
passes each index (a Go int, boxed into the `Value` parameter) and runs
once per position whether or not that position's error is nil. -/
def attrLoadAllPropArgs (values : List Value) : List Value :=
  (List.range values.length).map (fun i => Value.int i)

/-- Follows the spec's words, for comparison with `attrLoadAllPropArgs`:
the propagator is invoked once per value whose paired positional error is
nil, and is passed that loaded value. -/
def specLoadAllPropArgs (values : List Value) (errs : List (Option GoError)) : List Value :=
  (values.zip errs).filterMap (fun p => if p.2 = none then some p.1 else none)

/-- Embeds `AttrDataLoader.LoadAll`: on nil loader return nil values and
a single-element `AttrNotRegError` slice; otherwise delegate to
`DataLoader.LoadAll` and run the propagator loop over the returned
values.  The values slice is `none` for Go nil, `some` otherwise. -/
def attrLoadAll (s : AttrState) (a : Nat) (keys : List Key) :
    Option (Option (List Value) × List (Option GoError) × List Value × AttrState) :=
  match regLoader s.reg a with
  | none => none
  | some (some dl, reg1, _) =>
    match dlLoadAll dl keys with
    | none => none
    | some (vs, errs, dl') =>
      some (some vs, errs,
        if a ∈ s.props then attrLoadAllPropArgs vs else [],
        { s with reg := { reg1 with loaders := (a, dl') :: reg1.loaders } })
  | some (none, reg1, _) =>
    some (none, [some (GoError.attrNotReg (attrNotRegMsg a))], [], { s with reg := reg1 })

/-- Embeds `AttrDataLoader.prime` (used by `Prime` with `forcePrime =
false` and `ForcePrime` with `true`): nil loader returns false. -/
def attrPrime (s : AttrState) (a : Nat) (key : Key) (value : Value) (forcePrime : Bool) :
    Option (Bool × AttrState) :=
  match regLoader s.reg a with
  | none => none
  | some (some dl, reg1, _) =>
    some ((dlPrime dl key value forcePrime).1,
      { s with reg := { reg1 with
          loaders := (a, (dlPrime dl key value forcePrime).2) :: reg1.loaders } })
  | some (none, reg1, _) => some (false, { s with reg := reg1 })

/-- Embeds `AttrDataLoader.Clear`: clear the key in the attribute's
loader if one exists, return self. -/
def attrClear (s : AttrState) (a : Nat) (key : Key) : Option AttrState :=
  match regLoader s.reg a with
  | none => none
  | some (some dl, reg1, _) =>
    some { s with reg := { reg1 with loaders := (a, dlClear dl key) :: reg1.loaders } }
  | some (none, reg1, _) => some { s with reg := reg1 }

/-- An `ObjAttrDataLoader`: the lazy registry of per-object-type
`AttrDataLoader`s. -/
structure ObjState where
  reg : LazyReg AttrState

/-- Embeds `ObjAttrDataLoader.Load`: route to the object type's
`AttrDataLoader`, or return `ObjTypeNotRegError` when unregistered. -/
def objLoad (s : ObjState) (ot a : Nat) (key : Key) :
    Option (Value × Option GoError × List Value × ObjState) :=
  match regLoader s.reg ot with
  | none => none
  | some (some al, reg1, _) =>
    match attrLoad al a key with
    | none => none
    | some (v, e, propTrace, al') =>
      some (v, e, propTrace, ⟨{ reg1 with loaders := (ot, al') :: reg1.loaders }⟩)
  | some (none, reg1, _) =>
    some (Value.nil, some (GoError.objTypeNotReg (objTypeNotRegMsg ot)), [], ⟨reg1⟩)

/-- Embeds `ObjAttrDataLoader.LoadAll`: route to the object type's
`AttrDataLoader`, or return nil values plus a single-element
`ObjTypeNotRegError` slice when unregistered. -/
def objLoadAll (s : ObjState) (ot a : Nat) (keys : List Key) :
    Option (Option (List Value) × List (Option GoError) × List Value × ObjState) :=
  match regLoader s.reg ot with
  | none => none
  | some (some al, reg1, _) =>
    match attrLoadAll al a keys with
    | none => none
    | some (vs, errs, propTrace, al') =>
      some (vs, errs, propTrace, ⟨{ reg1 with loaders := (ot, al') :: reg1.loaders }⟩)
  | some (none, reg1, _) =>
    some (none, [some (GoError.objTypeNotReg (objTypeNotRegMsg ot))], [], ⟨reg1⟩)

/-- No constructed loader and no registered initializer. -/
def NotRegistered {α : Type} (s : LazyReg α) (a : Nat) : Prop :=
  assocGet s.loaders a = none ∧ assocGet s.initLoaders a = none

theorem regLoader_notReg {α : Type} {s : LazyReg α} {a : Nat}
    (h : NotRegistered s a) : regLoader s a = some (none, s, false) := by
  unfold regLoader
  rw [h.1, h.2]

/-! ### Claim C8 -/

/-- Claim C8: on an attribute with no constructed loader and no
registered initializer, `Load` and `LoadAll` return an `AttrNotRegError`
(with no propagator invocation and no state change), `Prime` returns
false, and `Clear` is a no-op returning the loader; an unregistered
object type likewise makes `ObjAttrDataLoader.Load`/`LoadAll` return an
`ObjTypeNotRegError`. -/
theorem unregistered_ops (s : AttrState) (a : Nat) (key : Key) (keys : List Key)
    (v : Value) (force : Bool) (so : ObjState) (ot b : Nat)
    (h : NotRegistered s.reg a) (ho : NotRegistered so.reg ot) :
    attrLoad s a key
        = some (Value.nil, some (GoError.attrNotReg (attrNotRegMsg a)), [], s)
      ∧ attrLoadAll s a keys
        = some (none, [some (GoError.attrNotReg (attrNotRegMsg a))], [], s)
      ∧ attrPrime s a key v force = some (false, s)
      ∧ attrClear s a key = some s
      ∧ objLoad so ot b key
        = some (Value.nil, some (GoError.objTypeNotReg (objTypeNotRegMsg ot)), [], so)
      ∧ objLoadAll so ot b keys
        = some (none, [some (GoError.objTypeNotReg (objTypeNotRegMsg ot))], [], so) := by
  refine ⟨?_, ?_, ?_, ?_, ?_, ?_⟩
  · simp only [attrLoad, regLoader_notReg h]
  · simp only [attrLoadAll, regLoader_notReg h]
  · simp only [attrPrime, regLoader_notReg h]
  · simp only [attrClear, regLoader_notReg h]
  · simp only [objLoad, regLoader_notReg ho]
  · simp only [objLoadAll, regLoader_notReg ho]

theorem unregistered_ops_witness :
    attrLoad { reg := { loaders := [], initLoaders := [] }, props := [] } 1 5
        = some (Value.nil, some (GoError.attrNotReg (attrNotRegMsg 1)), [],
            { reg := { loaders := [], initLoaders := [] }, props := [] })
      ∧ attrPrime { reg := { loaders := [], initLoaders := [] }, props := [] } 1 5
          (Value.obj 2) false
        = some (false, { reg := { loaders := [], initLoaders := [] }, props := [] }) := by
  have h := unregistered_ops
    { reg := { loaders := [], initLoaders := [] }, props := [] } 1 5 [5]
    (Value.obj 2) false ⟨{ loaders := [], initLoaders := [] }⟩ 4 1
    ⟨rfl, rfl⟩ ⟨rfl, rfl⟩
  exact ⟨h.1, h.2.2.1⟩

/-! ### Claim C10 -/

/-- Claim C10: for an unregistered attribute, `AttrDataLoader.LoadAll`
returns a nil values slice and an errors slice of length exactly 1
holding one `AttrNotRegError`, for a key list of any length — so the
result sequences are not parallel to `keys`; `ObjAttrDataLoader.LoadAll`
behaves the same way with one `ObjTypeNotRegError` for an unregistered
object type. -/
theorem loadAll_unregistered_shape (s : AttrState) (a : Nat) (keys : List Key)
    (so : ObjState) (ot b : Nat)
    (h : NotRegistered s.reg a) (ho : NotRegistered so.reg ot) :
    (∀ vs errs propTrace s', attrLoadAll s a keys = some (vs, errs, propTrace, s') →
        vs = none
          ∧ errs = [some (GoError.attrNotReg (attrNotRegMsg a))]
          ∧ errs.length = 1
          ∧ (keys.length ≠ 1 → errs.length ≠ keys.length))
      ∧ (∀ vs errs propTrace s', objLoadAll so ot b keys = some (vs, errs, propTrace, s') →
          vs = none
            ∧ errs = [some (GoError.objTypeNotReg (objTypeNotRegMsg ot))]
            ∧ errs.length = 1
            ∧ (keys.length ≠ 1 → errs.length ≠ keys.length)) := by
  constructor
  · intro vs errs propTrace s' hh
    rw [show attrLoadAll s a keys
        = some (none, [some (GoError.attrNotReg (attrNotRegMsg a))], [], { s with reg := s.reg })
      from by simp only [attrLoadAll, regLoader_notReg h]] at hh
    simp only [Option.some.injEq, Prod.mk.injEq] at hh
    obtain ⟨h1, h2, _⟩ := hh
    subst h1
    subst h2
    exact ⟨rfl, rfl, rfl, fun hk => by simpa using fun hc => hk hc.symm⟩
  · intro vs errs propTrace s' hh
    rw [show objLoadAll so ot b keys
        = some (none, [some (GoError.objTypeNotReg (objTypeNotRegMsg ot))], [], ⟨so.reg⟩)
      from by simp only [objLoadAll, regLoader_notReg ho]] at hh
    simp only [Option.some.injEq, Prod.mk.injEq] at hh
    obtain ⟨h1, h2, _⟩ := hh
    subst h1
    subst h2
    exact ⟨rfl, rfl, rfl, fun hk => by simpa using fun hc => hk hc.symm⟩

theorem loadAll_unregistered_shape_witness :
    (attrLoadAll { reg := { loaders := [], initLoaders := [] }, props := [] } 1 [5, 6, 7]).map
        (fun r => (r.1, r.2.1.length))
      = some (none, 1) := by
  have h := loadAll_unregistered_shape
    { reg := { loaders := [], initLoaders := [] }, props := [] } 1 [5, 6, 7]
    ⟨{ loaders := [], initLoaders := [] }⟩ 4 1 ⟨rfl, rfl⟩ ⟨rfl, rfl⟩
  have h2 := h.1 none [some (GoError.attrNotReg (attrNotRegMsg 1))] []
    { reg := { loaders := [], initLoaders := [] }, props := [] } rfl
  rw [show attrLoadAll { reg := { loaders := [], initLoaders := [] }, props := [] } 1 [5, 6, 7]
      = some (none, [some (GoError.attrNotReg (attrNotRegMsg 1))], [],
          { reg := { loaders := [], initLoaders := [] }, props := [] }) from rfl]
  simp only [Option.map]
  rw [h2.2.2.1]

/-! ### Claim C2 -/

/-- A concrete `AttrDataLoader` for attribute 0 with a registered
propagator, whose fetcher succeeds on every key. -/
def exAttrState : AttrState :=
  { reg := { loaders := [(0, { maxBatch := 0, fetch := exFetch, cache := [] })],
             initLoaders := [] },
    props := [0] }

/-- A fetcher failing every key with `fetchErr 1`. -/
def exErrFetch (ks : List Key) : List Value × Option (List (Option GoError)) :=
  (ks.map (fun _ => Value.nil), some (ks.map (fun _ => some (GoError.fetchErr 1))))

/-- Like `exAttrState` but with the failing fetcher. -/
def exAttrStateErr : AttrState :=
  { reg := { loaders := [(0, { maxBatch := 0, fetch := exErrFetch, cache := [] })],
             initLoaders := [] },
    props := [0] }

/-- Claim C2 (code bug): `AttrDataLoader.LoadAll` iterates
`for val := range values`, which binds the slice indices, so the
propagator receives the boxed index `Value.int 0` instead of the loaded
value `Value.obj 7`, and it is also invoked for a position whose paired
error is non-nil; the spec's intended semantics `specLoadAllPropArgs`
passes the loaded value and skips errored positions.  (The claim matches
the `ValuePropagator` documented contract — `loadedValue - the just
loaded value` — and `Load`'s behaviour; the loop is the slip.) -/
theorem loadAll_propagator_eval :
    (attrLoadAll exAttrState 0 [7]).map (fun r => (r.1, r.2.1, r.2.2.1))
        = some (some [Value.obj 7], [none], [Value.int 0])
      ∧ specLoadAllPropArgs [Value.obj 7] [none] = [Value.obj 7]
      ∧ Value.int 0 ≠ Value.obj 7
      ∧ (attrLoadAll exAttrStateErr 0 [7]).map (fun r => (r.1, r.2.1, r.2.2.1))
        = some (some [Value.nil], [some (GoError.fetchErr 1)], [Value.int 0])
      ∧ specLoadAllPropArgs [Value.nil] [some (GoError.fetchErr 1)] = []
      ∧ ([Value.int 0] : List Value) ≠ [] :=
  ⟨rfl, rfl, by decide, rfl, rfl, by decide⟩

end Dataloaders
